import Mathlib

/-!
Verification of the llm-qa repository: a question-answering front end with a
command-line entry point (`LLM_QA_CLI.py`) and a web entry point (`app.py`).
Both files define a text normalizer `basic_preprocess` and an answer requester
(`get_answer_from_llm` in the CLI, `get_llm_response` in the web app).

The embedding models Python strings as Lean `String` (a list of characters).
Python's `str.lower` is modelled by its ASCII case mapping and the whitespace
class of `str.split`/`str.strip` by the ASCII whitespace characters
(codes 9-13 and 32); every string the claims mention is ASCII, where these
models agree exactly with Python.  The external Gemini service is modelled as a
function from the issued request to an outcome (a returned text, a raised
`APIError` rendered as its message string, or any other exception rendered as
its string form); each modelled operation also returns the list of requests it
issued, so that "no call was made" is expressible.
-/

/-- ASCII case mapping of Python `str.lower`: codes 65-90 map to codes 97-122,
everything else is unchanged. -/
def lowerChar (c : Char) : Char :=
  if 65 ≤ c.toNat ∧ c.toNat ≤ 90 then Char.ofNat (c.toNat + 32) else c

/-- Membership in Python's `string.punctuation`, the 32 ASCII punctuation
characters: codes 33-47, 58-64, 91-96 and 123-126. -/
def isPunct (c : Char) : Bool :=
  (33 ≤ c.toNat && c.toNat ≤ 47) || (58 ≤ c.toNat && c.toNat ≤ 64) ||
  (91 ≤ c.toNat && c.toNat ≤ 96) || (123 ≤ c.toNat && c.toNat ≤ 126)

/-- The whitespace class used by Python `str.split()` and `str.strip()`,
restricted to ASCII: space (32) and codes 9-13 (tab, newline, vertical tab,
form feed, carriage return). -/
def isSpaceChar (c : Char) : Bool :=
  c.toNat == 32 || (9 ≤ c.toNat && c.toNat ≤ 13)

/-- Accumulator loop of Python `str.split()` (split on runs of whitespace,
discarding empty pieces): `acc` holds the characters of the word currently
being read, in reverse. -/
def splitWsAux : List Char → List Char → List (List Char)
  | [], acc => if acc.isEmpty then [] else [acc.reverse]
  | c :: rest, acc =>
    if isSpaceChar c then
      if acc.isEmpty then splitWsAux rest [] else acc.reverse :: splitWsAux rest []
    else splitWsAux rest (c :: acc)

/-- Python `str.split()` with no separator argument, on character lists. -/
def splitWs (l : List Char) : List (List Char) :=
  splitWsAux l []

/-- Python `sep.join(tokens)` on character lists. -/
def joinSep (sep : List Char) : List (List Char) → List Char
  | [] => []
  | [t] => t
  | t :: ts => t ++ sep ++ joinSep sep ts

/-- Python `text.lower()` (ASCII case mapping, see `lowerChar`). -/
def pythonLower (s : String) : String :=
  String.mk (s.data.map lowerChar)

/-- Python `text.translate(str.maketrans('', '', string.punctuation))`:
delete every standard-punctuation character. -/
def removePunct (s : String) : String :=
  String.mk (s.data.filter (fun c => !isPunct c))

/-- Python `text.split()`. -/
def pythonSplit (s : String) : List String :=
  (splitWs s.data).map String.mk

/-- Python `" ".join(tokens)`. -/
def joinSpace (ts : List String) : String :=
  String.mk (joinSep [' '] (ts.map String.data))

/-- Python `text.strip()`: remove leading and trailing whitespace. -/
def pythonStrip (s : String) : String :=
  String.mk (((s.data.dropWhile isSpaceChar).reverse.dropWhile isSpaceChar).reverse)

/-- The Gemini client handle (`genai.Client(api_key=API_KEY)`); only its
presence matters to the modelled control flow. -/
structure Client where
  api_key : String
deriving DecidableEq

/-- The request issued by `client.models.generate_content(...)`: the `model`
argument, the `system_instruction` of the config, and the `contents` payload. -/
structure Request where
  model : String
  sys_instruction : String
  contents : String
deriving DecidableEq

/-- Outcome of one call to the external service: a successful response whose
`.text` field is `text`, a raised `APIError` whose string form is `msg`, or any
other raised exception whose string form is `msg`. -/
inductive CallResult where
  | success (text : String)
  | apiError (msg : String)
  | failure (msg : String)
deriving DecidableEq

/-- The fixed system instruction string shared by both entry points. -/
def systemInstructionText : String :=
  "You are a helpful and concise Question-Answering system. Answer the user's question directly and professionally."

/-- The request both entry points build for a question: fixed model identifier
`gemini-2.5-flash`, the fixed system instruction, and the question as the
`contents` payload. -/
def mkRequest (question : String) : Request :=
  { model := "gemini-2.5-flash"
    sys_instruction := systemInstructionText
    contents := question }

namespace CLI

/-- `basic_preprocess` of `LLM_QA_CLI.py`: lowercase, remove punctuation,
split into tokens and re-join with single spaces. -/
def basic_preprocess (text : String) : String :=
  let lowered := pythonLower text
  let nopunct := removePunct lowered
  let tokens := pythonSplit nopunct
  joinSpace tokens

/-- `get_answer_from_llm` of `LLM_QA_CLI.py`.  The module prologue has already
exited unless the client was created, so the client is unconditionally
available here.  `service` is the behaviour of
`client.models.generate_content`; the second component lists the requests
issued. -/
def get_answer_from_llm (service : Request → CallResult) (question : String) :
    String × List Request :=
  match service (mkRequest question) with
  | CallResult.success t => (t, [mkRequest question])
  | CallResult.apiError m => ("An API Error occurred: " ++ m, [mkRequest question])
  | CallResult.failure m => ("An unexpected error occurred: " ++ m, [mkRequest question])

/-- `main` of `LLM_QA_CLI.py` as a function of the one line read from the
console: the strings written to standard output (the banner, the `input`
prompt, then either the no-question message or the exchange), paired with the
requests issued to the service. -/
def main (service : Request → CallResult) (input_line : String) :
    List String × List Request :=
  let header := ["--- LLM Q&A Command-Line Interface ---", "\nEnter your question: "]
  if (pythonStrip input_line).data.isEmpty then
    (header ++ ["No question entered. Exiting."], [])
  else
    let processed_q := basic_preprocess input_line
    let r := get_answer_from_llm service input_line
    (header ++
      ["\nOriginal Question: " ++ input_line,
       "Preprocessed Text: " ++ processed_q,
       "\nSending question to LLM...",
       "\n==================================",
       "🤖 Final LLM Answer:",
       r.1,
       "=================================="], r.2)

end CLI

namespace App

/-- `basic_preprocess` of `app.py` (textually identical to the CLI's). -/
def basic_preprocess (text : String) : String :=
  let lowered := pythonLower text
  let nopunct := removePunct lowered
  let tokens := pythonSplit nopunct
  joinSpace tokens

/-- `get_llm_response` of `app.py`: the module-level `client` may be `None`
(missing or rejected credential), in which case a fixed error string is
returned without calling the service. -/
def get_llm_response (client : Option Client) (service : Request → CallResult)
    (question : String) : String × List Request :=
  match client with
  | none => ("ERROR: LLM Client failed to initialize. Check GEMINI_API_KEY setting.", [])
  | some _ =>
    match service (mkRequest question) with
    | CallResult.success t => (t, [mkRequest question])
    | CallResult.apiError m => ("An API Error occurred: " ++ m, [mkRequest question])
    | CallResult.failure m => ("An unexpected error occurred: " ++ m, [mkRequest question])

/-- The template context built by the `index` route of `app.py`. -/
structure Context where
  user_question : String
  original_question : String
  processed_question : String
  answer : Option String
deriving DecidableEq

/-- HTTP method of a request to the `/` route. -/
inductive Method where
  | GET
  | POST
deriving DecidableEq

/-- The `index` route of `app.py`: on POST, read the `question` form field
(defaulting to the empty string), strip it, and either run the exchange or
answer with the fixed prompt-to-enter-text message; on GET, render the empty
form.  Returns the rendered context and the requests issued. -/
def index (client : Option Client) (service : Request → CallResult)
    (method : Method) (form_question : Option String) : Context × List Request :=
  let context : Context :=
    { user_question := "", original_question := "", processed_question := "", answer := none }
  match method with
  | Method.GET => (context, [])
  | Method.POST =>
    let user_question := pythonStrip (form_question.getD "")
    if user_question.data.isEmpty then
      ({ context with answer := some "Please enter a question." }, [])
    else
      let processed_q := basic_preprocess user_question
      let r := get_llm_response client service user_question
      ({ user_question := user_question
         original_question := user_question
         processed_question := processed_q
         answer := some r.1 }, r.2)

end App

/-- The Normalizer as section 4.1 of the spec words it: lower-case all
characters, delete every character of the fixed ASCII punctuation set, then
collapse whitespace by splitting on whitespace and rejoining the tokens with
single spaces. -/
def normalizerSpec (s : String) : String :=
  String.mk (joinSep [' '] (splitWs ((s.data.map lowerChar).filter (fun c => !isPunct c))))

example : CLI.basic_preprocess "Hello, World!!" = "hello world" := by decide
example : CLI.basic_preprocess "  multiple   spaces  " = "multiple spaces" := by decide
example : CLI.basic_preprocess "" = "" := by decide
example : pythonStrip "  a b " = "a b" := by decide

/-! ### Helper lemmas -/

theorem string_ext {a b : String} (h : a.data = b.data) : a = b := by
  cases a; cases b; cases h; rfl

theorem toNat_ofNat_of_lt {n : Nat} (h : n < 0xd800) : (Char.ofNat n).toNat = n := by
  have hv : n.isValidChar := Or.inl h
  simp [Char.ofNat, hv, Char.ofNatAux, Char.toNat, UInt32.toNat]

/-- The result of `lowerChar` is never an uppercase ASCII letter. -/
theorem lowerChar_not_upper (c : Char) :
    ¬(65 ≤ (lowerChar c).toNat ∧ (lowerChar c).toNat ≤ 90) := by
  unfold lowerChar
  by_cases h : 65 ≤ c.toNat ∧ c.toNat ≤ 90
  · rw [if_pos h]
    have : (Char.ofNat (c.toNat + 32)).toNat = c.toNat + 32 :=
      toNat_ofNat_of_lt (by omega)
    omega
  · rw [if_neg h]; exact h

theorem lowerChar_eq_self {c : Char} (h : ¬(65 ≤ c.toNat ∧ c.toNat ≤ 90)) :
    lowerChar c = c := by
  unfold lowerChar
  rw [if_neg h]

theorem map_eq_self {f : Char → Char} {l : List Char} (h : ∀ c ∈ l, f c = c) :
    l.map f = l := by
  induction l with
  | nil => rfl
  | cons a l ih =>
    simp only [List.map_cons, h a (List.mem_cons_self a l),
      ih (fun c hc => h c (List.mem_cons_of_mem a hc))]

theorem takeWhile_append_of_all {p : Char → Bool} {t : List Char} (r : List Char)
    (h : ∀ a ∈ t, p a = true) : (t ++ r).takeWhile p = t ++ r.takeWhile p := by
  induction t with
  | nil => rfl
  | cons a t ih =>
    have ha := h a (List.mem_cons_self a t)
    have iht := ih (fun c hc => h c (List.mem_cons_of_mem a hc))
    simp [List.takeWhile_cons, ha, iht]

theorem dropWhile_append_of_all {p : Char → Bool} {t : List Char} (r : List Char)
    (h : ∀ a ∈ t, p a = true) : (t ++ r).dropWhile p = r.dropWhile p := by
  induction t with
  | nil => rfl
  | cons a t ih =>
    have ha := h a (List.mem_cons_self a t)
    have iht := ih (fun c hc => h c (List.mem_cons_of_mem a hc))
    simp [List.dropWhile_cons, ha, iht]

/-! ### Equations of `splitWs` -/

theorem splitWs_nil : splitWs [] = [] := rfl

theorem splitWs_cons_space {c : Char} (l : List Char) (h : isSpaceChar c = true) :
    splitWs (c :: l) = splitWs l := by
  simp [splitWs, splitWsAux, h]

theorem splitWsAux_ne_nil (l : List Char) {acc : List Char} (hacc : acc ≠ []) :
    splitWsAux l acc =
      (acc.reverse ++ l.takeWhile (fun d => !isSpaceChar d)) ::
        splitWs (l.dropWhile (fun d => !isSpaceChar d)) := by
  induction l generalizing acc with
  | nil =>
    have hie : acc.isEmpty = false := by
      cases acc with
      | nil => exact absurd rfl hacc
      | cons a acc => rfl
    simp [splitWsAux, hie, splitWs_nil]
  | cons d r ih =>
    have hie : acc.isEmpty = false := by
      cases acc with
      | nil => exact absurd rfl hacc
      | cons a acc => rfl
    by_cases hs : isSpaceChar d = true
    · rw [List.takeWhile_cons, List.dropWhile_cons]
      simp only [hs, Bool.not_true, Bool.false_eq_true, if_false, List.append_nil]
      rw [splitWs_cons_space r hs]
      simp [splitWsAux, hs, hie, splitWs]
    · have hs' : isSpaceChar d = false := by
        cases h : isSpaceChar d with
        | false => rfl
        | true => exact absurd h hs
      rw [List.takeWhile_cons, List.dropWhile_cons]
      simp only [hs', Bool.not_false]
      have ihd := ih (List.cons_ne_nil d acc)
      simp [splitWsAux, hs', ihd, List.append_assoc]

theorem splitWs_cons_word {c : Char} (l : List Char) (h : isSpaceChar c = false) :
    splitWs (c :: l) =
      (c :: l.takeWhile (fun d => !isSpaceChar d)) ::
        splitWs (l.dropWhile (fun d => !isSpaceChar d)) := by
  show splitWsAux (c :: l) [] = _
  simp only [splitWsAux, h, Bool.false_eq_true, if_false, List.isEmpty_nil]
  rw [splitWsAux_ne_nil l (List.cons_ne_nil c [])]
  rfl

/-- Induction principle following the word structure of `splitWs`. -/
theorem splitWs_ind (motive : List Char → Prop) (h0 : motive [])
    (hs : ∀ c l, isSpaceChar c = true → motive l → motive (c :: l))
    (hw : ∀ c l, isSpaceChar c = false →
      motive (l.dropWhile (fun d => !isSpaceChar d)) → motive (c :: l)) :
    ∀ l, motive l := by
  intro l
  generalize hn : l.length = n
  induction n using Nat.strong_induction_on generalizing l with
  | _ n ih =>
    cases l with
    | nil => exact h0
    | cons c r =>
      by_cases hsp : isSpaceChar c = true
      · refine hs c r hsp (ih r.length ?_ r rfl)
        simp only [List.length_cons] at hn
        omega
      · have hsp' : isSpaceChar c = false := by
          cases h : isSpaceChar c with
          | false => rfl
          | true => exact absurd h hsp
        refine hw c r hsp' (ih (r.dropWhile (fun d => !isSpaceChar d)).length ?_ _ rfl)
        have hle := (List.dropWhile_sublist (l := r) (fun d => !isSpaceChar d)).length_le
        simp only [List.length_cons] at hn
        omega

/-! ### Tokens produced by `splitWs` -/

/-- Every token of `splitWs l` is nonempty, whitespace-free, and drawn from
the characters of `l`. -/
theorem mem_splitWs (l : List Char) :
    ∀ t ∈ splitWs l, t ≠ [] ∧ ∀ c ∈ t, isSpaceChar c = false ∧ c ∈ l := by
  induction l using splitWs_ind with
  | h0 => intro t ht; exact absurd ht (by simp [splitWs_nil])
  | hs c l hc ih =>
    rw [splitWs_cons_space l hc]
    intro t ht
    obtain ⟨h1, h2⟩ := ih t ht
    exact ⟨h1, fun d hd => ⟨(h2 d hd).1, List.mem_cons_of_mem c (h2 d hd).2⟩⟩
  | hw c l hc ih =>
    rw [splitWs_cons_word l hc]
    intro t ht
    rcases List.mem_cons.mp ht with h | h
    · subst h
      refine ⟨List.cons_ne_nil c _, ?_⟩
      intro d hd
      rcases List.mem_cons.mp hd with rfl | hd2
      · exact ⟨hc, List.mem_cons_self d l⟩
      · have hp := List.mem_takeWhile_imp hd2
        refine ⟨by simpa using hp, List.mem_cons_of_mem c ?_⟩
        exact (List.takeWhile_sublist _).subset hd2
    · obtain ⟨h1, h2⟩ := ih t h
      refine ⟨h1, fun d hd => ⟨(h2 d hd).1, List.mem_cons_of_mem c ?_⟩⟩
      exact (List.dropWhile_sublist _).subset (h2 d hd).2

/-- Splitting a whitespace-free nonempty word followed by remainder that is
empty or starts with whitespace yields the word as first token. -/
theorem splitWs_word_append {t : List Char} (r : List Char) (ht : t ≠ [])
    (hts : ∀ c ∈ t, isSpaceChar c = false)
    (hr : ∀ c, r.head? = some c → isSpaceChar c = true) :
    splitWs (t ++ r) = t :: splitWs r := by
  cases t with
  | nil => exact absurd rfl ht
  | cons c t' =>
    have hc : isSpaceChar c = false := hts c (List.mem_cons_self c t')
    have ht' : ∀ a ∈ t', (!isSpaceChar a) = true := by
      intro a ha
      rw [hts a (List.mem_cons_of_mem c ha)]
      rfl
    rw [List.cons_append, splitWs_cons_word (t' ++ r) hc,
      takeWhile_append_of_all r ht', dropWhile_append_of_all r ht']
    have hrt : r.takeWhile (fun d => !isSpaceChar d) = [] := by
      cases r with
      | nil => rfl
      | cons d r' =>
        have hd : isSpaceChar d = true := hr d rfl
        simp [List.takeWhile_cons, hd]
    have hrd : r.dropWhile (fun d => !isSpaceChar d) = r := by
      cases r with
      | nil => rfl
      | cons d r' =>
        have hd : isSpaceChar d = true := hr d rfl
        simp [List.dropWhile_cons, hd]
    rw [hrt, hrd, List.append_nil]

/-- Rejoining the tokens of a good token list with single spaces and splitting
again recovers the tokens. -/
theorem splitWs_joinSep {ts : List (List Char)}
    (h : ∀ t ∈ ts, t ≠ [] ∧ ∀ c ∈ t, isSpaceChar c = false) :
    splitWs (joinSep [' '] ts) = ts := by
  induction ts with
  | nil => rfl
  | cons t ts ih =>
    obtain ⟨ht, hts⟩ := h t (List.mem_cons_self t ts)
    cases ts with
    | nil =>
      show splitWs t = [t]
      have := splitWs_word_append [] ht hts (by intro c hc; cases hc)
      rw [List.append_nil] at this
      rw [this, splitWs_nil]
    | cons t2 ts2 =>
      have hjoin : joinSep [' '] (t :: t2 :: ts2) = t ++ (' ' :: joinSep [' '] (t2 :: ts2)) := by
        show t ++ [' '] ++ joinSep [' '] (t2 :: ts2) = _
        rw [List.append_assoc]
        rfl
      rw [hjoin, splitWs_word_append (' ' :: joinSep [' '] (t2 :: ts2)) ht hts
        (by intro c hc; cases hc; rfl)]
      rw [splitWs_cons_space _ (by rfl)]
      rw [ih (fun u hu => h u (List.mem_cons_of_mem t hu))]

/-! ### Characters of `joinSep` -/

theorem mem_joinSep {c : Char} {ts : List (List Char)}
    (h : c ∈ joinSep [' '] ts) : c = ' ' ∨ ∃ t ∈ ts, c ∈ t := by
  induction ts with
  | nil => cases h
  | cons t ts ih =>
    cases ts with
    | nil =>
      right
      exact ⟨t, List.mem_cons_self t [], h⟩
    | cons t2 ts2 =>
      have h' : c ∈ t ++ [' '] ++ joinSep [' '] (t2 :: ts2) := h
      rcases List.mem_append.mp h' with h2 | h2
      · rcases List.mem_append.mp h2 with h3 | h3
        · exact Or.inr ⟨t, List.mem_cons_self t _, h3⟩
        · exact Or.inl (List.mem_singleton.mp h3)
      · rcases ih h2 with h3 | ⟨u, hu, hcu⟩
        · exact Or.inl h3
        · exact Or.inr ⟨u, List.mem_cons_of_mem t hu, hcu⟩

theorem head?_joinSep {t : List Char} {ts : List (List Char)} (ht : t ≠ []) :
    (joinSep [' '] (t :: ts)).head? = t.head? := by
  cases ts with
  | nil => rfl
  | cons t2 ts2 =>
    show (t ++ [' '] ++ joinSep [' '] (t2 :: ts2)).head? = t.head?
    cases t with
    | nil => exact absurd rfl ht
    | cons c t' => rfl

theorem getLast?_joinSep {ts : List (List Char)}
    (h : ∀ t ∈ ts, t ≠ []) :
    ts = [] ∨ ∃ t ∈ ts, (joinSep [' '] ts).getLast? = t.getLast? := by
  induction ts with
  | nil => exact Or.inl rfl
  | cons t ts ih =>
    right
    cases ts with
    | nil => exact ⟨t, List.mem_cons_self t [], rfl⟩
    | cons t2 ts2 =>
      rcases ih (fun u hu => h u (List.mem_cons_of_mem t hu)) with h2 | ⟨u, hu, hlast⟩
      · cases h2
      · refine ⟨u, List.mem_cons_of_mem t hu, ?_⟩
        show (t ++ [' '] ++ joinSep [' '] (t2 :: ts2)).getLast? = u.getLast?
        rw [List.getLast?_append_of_ne_nil (t ++ [' '])]
        · exact hlast
        · intro hnil
          have ht2 : t2 ≠ [] := h t2 (List.mem_cons_of_mem t (List.mem_cons_self t2 ts2))
          have : (joinSep [' '] (t2 :: ts2)).head? = t2.head? := head?_joinSep ht2
          rw [hnil] at this
          cases t2 with
          | nil => exact absurd rfl ht2
          | cons d t2' => cases this

/-! ### The normalizer pipeline on character lists -/

/-- The composite transform of `basic_preprocess` on character lists. -/
def ppList (l : List Char) : List Char :=
  joinSep [' '] (splitWs ((l.map lowerChar).filter (fun c => !isPunct c)))

theorem bp_data (s : String) : (CLI.basic_preprocess s).data = ppList s.data := by
  show (joinSpace (pythonSplit (removePunct (pythonLower s)))).data = ppList s.data
  unfold joinSpace pythonSplit removePunct pythonLower ppList
  simp only [List.map_map]
  congr 1
  show List.map id (splitWs ((s.data.map lowerChar).filter (fun c => !isPunct c))) = _
  exact List.map_id _

theorem app_eq_cli_preprocess (s : String) : App.basic_preprocess s = CLI.basic_preprocess s := rfl

theorem ppList_tokens_good (l : List Char) :
    ∀ t ∈ splitWs ((l.map lowerChar).filter (fun c => !isPunct c)),
      t ≠ [] ∧ ∀ c ∈ t, isSpaceChar c = false :=
  fun t ht =>
    ⟨(mem_splitWs _ t ht).1, fun c hc => ((mem_splitWs _ t ht).2 c hc).1⟩

/-- Every character of the normalized output is neither an uppercase ASCII
letter nor an ASCII punctuation character. -/
theorem ppList_chars {l : List Char} {c : Char} (h : c ∈ ppList l) :
    ¬(65 ≤ c.toNat ∧ c.toNat ≤ 90) ∧ isPunct c = false := by
  rcases mem_joinSep h with rfl | ⟨t, ht, hct⟩
  · exact ⟨by decide, by decide⟩
  · have hcl := ((mem_splitWs _ t ht).2 c hct).2
    have hfilter := List.mem_filter.mp hcl
    obtain ⟨a, _, rfl⟩ := List.mem_map.mp hfilter.1
    refine ⟨lowerChar_not_upper a, ?_⟩
    have := hfilter.2
    cases hp : isPunct (lowerChar a) with
    | false => rfl
    | true => rw [hp] at this; exact absurd this (by decide)

/-- The normalizer is a fixed point on its own output (character-list level). -/
theorem ppList_fixed (l : List Char) : ppList (ppList l) = ppList l := by
  have h1 : (ppList l).map lowerChar = ppList l :=
    map_eq_self (fun c hc => lowerChar_eq_self (ppList_chars hc).1)
  have h2 : (ppList l).filter (fun c => !isPunct c) = ppList l :=
    List.filter_eq_self.mpr (fun c hc => by rw [(ppList_chars hc).2]; rfl)
  show joinSep [' ']
      (splitWs (((ppList l).map lowerChar).filter (fun c => !isPunct c))) = ppList l
  rw [h1, h2]
  show joinSep [' ']
      (splitWs (joinSep [' '] (splitWs ((l.map lowerChar).filter (fun c => !isPunct c))))) =
    joinSep [' '] (splitWs ((l.map lowerChar).filter (fun c => !isPunct c)))
  rw [splitWs_joinSep (ppList_tokens_good l)]

theorem ppList_head {l : List Char} {c : Char} (h : (ppList l).head? = some c) :
    isSpaceChar c = false := by
  revert h
  show (joinSep [' '] (splitWs ((l.map lowerChar).filter (fun d => !isPunct d)))).head? = some c → _
  cases hts : splitWs ((l.map lowerChar).filter (fun d => !isPunct d)) with
  | nil => intro h; cases h
  | cons t ts =>
    intro h
    have ht := ppList_tokens_good l t (hts ▸ List.mem_cons_self t ts)
    rw [head?_joinSep ht.1] at h
    exact ht.2 c (List.mem_of_mem_head? h)

theorem ppList_last {l : List Char} {c : Char} (h : (ppList l).getLast? = some c) :
    isSpaceChar c = false := by
  have hgood := ppList_tokens_good l
  rcases getLast?_joinSep (fun t ht => (hgood t ht).1) with hnil | ⟨t, ht, hlast⟩
  · rw [show ppList l = joinSep [' ']
        (splitWs ((l.map lowerChar).filter (fun d => !isPunct d))) from rfl, hnil] at h
    cases h
  · rw [show ppList l = joinSep [' ']
        (splitWs ((l.map lowerChar).filter (fun d => !isPunct d))) from rfl, hlast] at h
    exact (hgood t ht).2 c (List.mem_of_mem_getLast? h)

theorem chain'_token {t : List Char} (h : ∀ c ∈ t, isSpaceChar c = false) :
    List.Chain' (fun a b => ¬(isSpaceChar a = true ∧ isSpaceChar b = true)) t := by
  induction t with
  | nil => exact List.chain'_nil
  | cons a t ih =>
    refine List.chain'_cons'.mpr ⟨?_, ih (fun c hc => h c (List.mem_cons_of_mem a hc))⟩
    intro b _ hab
    rw [h a (List.mem_cons_self a t)] at hab
    exact Bool.false_ne_true hab.1

/-- The normalized output never contains two consecutive whitespace
characters. -/
theorem chain'_joinSep {ts : List (List Char)}
    (h : ∀ t ∈ ts, t ≠ [] ∧ ∀ c ∈ t, isSpaceChar c = false) :
    List.Chain' (fun a b => ¬(isSpaceChar a = true ∧ isSpaceChar b = true))
      (joinSep [' '] ts) := by
  induction ts with
  | nil => exact List.chain'_nil
  | cons t ts ih =>
    obtain ⟨ht, hts⟩ := h t (List.mem_cons_self t ts)
    cases ts with
    | nil => exact chain'_token hts
    | cons t2 ts2 =>
      have hrest := ih (fun u hu => h u (List.mem_cons_of_mem t hu))
      show List.Chain' _ (t ++ [' '] ++ joinSep [' '] (t2 :: ts2))
      rw [List.append_assoc]
      refine (chain'_token hts).append ?_ ?_
      · refine (List.chain'_singleton ' ').append hrest ?_
        intro x _ y hy
        have ht2 := h t2 (List.mem_cons_of_mem t (List.mem_cons_self t2 ts2))
        rw [head?_joinSep ht2.1] at hy
        have hy2 : y ∈ t2 := List.mem_of_mem_head? hy
        intro hxy
        rw [ht2.2 y hy2] at hxy
        exact Bool.false_ne_true hxy.2
      · intro x hx y _
        have hx2 : x ∈ t := List.mem_of_mem_getLast? hx
        intro hxy
        rw [hts x hx2] at hxy
        exact Bool.false_ne_true hxy.1

/-! ### `pythonStrip` -/

theorem pythonStrip_data_eq_nil_iff (s : String) :
    (pythonStrip s).data = [] ↔ ∀ c ∈ s.data, isSpaceChar c = true := by
  show ((s.data.dropWhile isSpaceChar).reverse.dropWhile isSpaceChar).reverse = [] ↔ _
  rw [List.reverse_eq_nil_iff, List.dropWhile_eq_nil_iff]
  constructor
  · intro h c hc
    have hsplit := List.takeWhile_append_dropWhile (p := isSpaceChar) (l := s.data)
    rw [← hsplit] at hc
    rcases List.mem_append.mp hc with h2 | h2
    · exact List.mem_takeWhile_imp h2
    · exact h c (List.mem_reverse.mpr h2)
  · intro h c hc
    exact h c ((List.dropWhile_sublist _).subset (List.mem_reverse.mp hc))

theorem isEmpty_false_of_ne_nil {l : List Char} (h : ¬l = []) : l.isEmpty = false := by
  cases l with
  | nil => exact absurd rfl h
  | cons a l => rfl

theorem get_answer_requests (service : Request → CallResult) (q : String) :
    (CLI.get_answer_from_llm service q).2 = [mkRequest q] := by
  unfold CLI.get_answer_from_llm
  cases service (mkRequest q) <;> rfl

theorem get_llm_response_requests (c : Client) (service : Request → CallResult) (q : String) :
    (App.get_llm_response (some c) service q).2 = [mkRequest q] := by
  unfold App.get_llm_response
  cases service (mkRequest q) <;> rfl

/-! ### The claims -/

/-- Claim C1: for every input string, `basic_preprocess` returns the string
obtained by lower-casing, deleting every fixed-ASCII-punctuation character,
and collapsing whitespace by splitting and rejoining with single spaces
(`normalizerSpec`, written from the spec's words); in particular it maps
`"Hello, World!!"` to `"hello world"`, `"  multiple   spaces  "` to
`"multiple spaces"` and `""` to `""`. -/
theorem claim_C1_normalizer :
    (∀ s : String, CLI.basic_preprocess s = normalizerSpec s) ∧
    (∀ s : String, App.basic_preprocess s = normalizerSpec s) ∧
    CLI.basic_preprocess "Hello, World!!" = "hello world" ∧
    CLI.basic_preprocess "  multiple   spaces  " = "multiple spaces" ∧
    CLI.basic_preprocess "" = "" := by
  refine ⟨?_, ?_, by decide, by decide, by decide⟩
  · intro s
    apply string_ext
    rw [bp_data]
    rfl
  · intro s
    apply string_ext
    rw [app_eq_cli_preprocess, bp_data]
    rfl

/-- Claim C2: the normalizer is idempotent, in both entry points. -/
theorem claim_C2_idempotent : ∀ s : String,
    CLI.basic_preprocess (CLI.basic_preprocess s) = CLI.basic_preprocess s ∧
    App.basic_preprocess (App.basic_preprocess s) = App.basic_preprocess s := by
  intro s
  have h : CLI.basic_preprocess (CLI.basic_preprocess s) = CLI.basic_preprocess s := by
    apply string_ext
    rw [bp_data, bp_data, ppList_fixed]
  exact ⟨h, h⟩

/-- Claim C3: the answer requesters never raise on a failing call: a
service-level `APIError` is mapped to a readable string carrying the error's
message inline, and any other exception to a string carrying its string form
inline. -/
theorem claim_C3_error_handling :
    ∀ (c : Client) (service : Request → CallResult) (q m : String),
      (service (mkRequest q) = CallResult.apiError m →
        (CLI.get_answer_from_llm service q).1 = "An API Error occurred: " ++ m ∧
        (App.get_llm_response (some c) service q).1 = "An API Error occurred: " ++ m ∧
        ∃ pre post, (CLI.get_answer_from_llm service q).1 = pre ++ m ++ post) ∧
      (service (mkRequest q) = CallResult.failure m →
        (CLI.get_answer_from_llm service q).1 = "An unexpected error occurred: " ++ m ∧
        (App.get_llm_response (some c) service q).1 = "An unexpected error occurred: " ++ m ∧
        ∃ pre post, (CLI.get_answer_from_llm service q).1 = pre ++ m ++ post) := by
  intro c service q m
  constructor
  · intro h
    refine ⟨?_, ?_, "An API Error occurred: ", "", ?_⟩
    · simp [CLI.get_answer_from_llm, h]
    · simp [App.get_llm_response, h]
    · simp [CLI.get_answer_from_llm, h]
  · intro h
    refine ⟨?_, ?_, "An unexpected error occurred: ", "", ?_⟩
    · simp [CLI.get_answer_from_llm, h]
    · simp [App.get_llm_response, h]
    · simp [CLI.get_answer_from_llm, h]

/-- Witness for C3: a stub service raising an `APIError` with message
"rate limited" yields a result carrying that message; a stub raising any other
exception with string form "boom" yields a result carrying "boom". -/
theorem claim_C3_witness :
    (CLI.get_answer_from_llm (fun _ => CallResult.apiError "rate limited") "What?").1 =
      "An API Error occurred: " ++ "rate limited" ∧
    (App.get_llm_response (some ⟨"key"⟩) (fun _ => CallResult.failure "boom") "What?").1 =
      "An unexpected error occurred: " ++ "boom" := by
  refine ⟨((claim_C3_error_handling ⟨"key"⟩
    (fun _ => CallResult.apiError "rate limited") "What?" "rate limited").1 rfl).1, ?_⟩
  exact ((claim_C3_error_handling ⟨"key"⟩
    (fun _ => CallResult.failure "boom") "What?" "boom").2 rfl).2.1

/-- Claim C4: with an uninitialized client, the web answer requester returns
the fixed error string and issues no service call, regardless of the question
and of the service's behaviour. -/
theorem claim_C4_uninitialized_client :
    ∀ (service : Request → CallResult) (q : String),
      App.get_llm_response none service q =
        ("ERROR: LLM Client failed to initialize. Check GEMINI_API_KEY setting.", []) := by
  intro service q
  rfl

/-- Claim C5: the issued request carries the fixed system instruction, the raw
question as contents, and the fixed model identifier; on success the service's
text field is returned verbatim. -/
theorem claim_C5_request_and_verbatim :
    ∀ (c : Client) (service : Request → CallResult) (q t : String),
      (mkRequest q).model = "gemini-2.5-flash" ∧
      (mkRequest q).sys_instruction = systemInstructionText ∧
      (mkRequest q).contents = q ∧
      (service (mkRequest q) = CallResult.success t →
        CLI.get_answer_from_llm service q = (t, [mkRequest q]) ∧
        App.get_llm_response (some c) service q = (t, [mkRequest q])) := by
  intro c service q t
  refine ⟨rfl, rfl, rfl, fun h => ⟨?_, ?_⟩⟩
  · simp [CLI.get_answer_from_llm, h]
  · simp [App.get_llm_response, h]

/-- Witness for C5: a stub service returning
"Paris is the capital of France." yields exactly that string. -/
theorem claim_C5_witness :
    CLI.get_answer_from_llm (fun _ => CallResult.success "Paris is the capital of France.")
        "What is the capital of France?" =
      ("Paris is the capital of France.", [mkRequest "What is the capital of France?"]) ∧
    App.get_llm_response (some ⟨"key"⟩)
        (fun _ => CallResult.success "Paris is the capital of France.")
        "What is the capital of France?" =
      ("Paris is the capital of France.", [mkRequest "What is the capital of France?"]) :=
  (claim_C5_request_and_verbatim ⟨"key"⟩
    (fun _ => CallResult.success "Paris is the capital of France.")
    "What is the capital of France?" "Paris is the capital of France.").2.2.2 rfl

/-- Claim C6: a POST whose question field is empty or whitespace-only after
trimming renders the fixed prompt-to-enter-text message and issues no service
call. -/
theorem claim_C6_empty_post :
    ∀ (client : Option Client) (service : Request → CallResult) (fq : Option String),
      (∀ c ∈ (fq.getD "").data, isSpaceChar c = true) →
      App.index client service App.Method.POST fq =
        ({ user_question := "", original_question := "", processed_question := "",
           answer := some "Please enter a question." }, []) := by
  intro client service fq h
  have hnil : (pythonStrip (fq.getD "")).data = [] := (pythonStrip_data_eq_nil_iff _).mpr h
  simp [App.index, hnil]

/-- Witness for C6: a POST with a whitespace-only field yields the fixed
message and no request. -/
theorem claim_C6_witness :
    App.index (some ⟨"key"⟩) (fun _ => CallResult.success "hi") App.Method.POST (some "   ") =
      ({ user_question := "", original_question := "", processed_question := "",
         answer := some "Please enter a question." }, []) :=
  claim_C6_empty_post (some ⟨"key"⟩) (fun _ => CallResult.success "hi") (some "   ") (by decide)

/-- Claim C7: in both entry points, the raw (unnormalized) question text is the
payload of the issued request, while the normalized text is computed separately
and only displayed. -/
theorem claim_C7_raw_payload :
    ∀ (c : Client) (service : Request → CallResult) (fq : Option String) (line : String),
      (¬(pythonStrip (fq.getD "")).data = [] →
        (App.index (some c) service App.Method.POST fq).2 =
          [mkRequest (pythonStrip (fq.getD ""))] ∧
        (App.index (some c) service App.Method.POST fq).1.original_question =
          pythonStrip (fq.getD "") ∧
        (App.index (some c) service App.Method.POST fq).1.processed_question =
          App.basic_preprocess (pythonStrip (fq.getD "")) ∧
        (mkRequest (pythonStrip (fq.getD ""))).contents = pythonStrip (fq.getD "")) ∧
      (¬(pythonStrip line).data = [] →
        (CLI.main service line).2 = [mkRequest line] ∧
        ("\nOriginal Question: " ++ line) ∈ (CLI.main service line).1 ∧
        ("Preprocessed Text: " ++ CLI.basic_preprocess line) ∈ (CLI.main service line).1 ∧
        (mkRequest line).contents = line) := by
  intro c service fq line
  constructor
  · intro h
    have hie := isEmpty_false_of_ne_nil h
    refine ⟨?_, ?_, ?_, rfl⟩ <;>
      simp [App.index, hie, get_llm_response_requests]
  · intro h
    have hie := isEmpty_false_of_ne_nil h
    refine ⟨?_, ?_, ?_, rfl⟩ <;>
      simp [CLI.main, hie, get_answer_requests]

/-- Witness for C7: concrete non-empty questions in both entry points. -/
theorem claim_C7_witness :
    (App.index (some ⟨"key"⟩) (fun _ => CallResult.success "hi") App.Method.POST
        (some " Why? ")).2 = [mkRequest "Why?"] ∧
    (CLI.main (fun _ => CallResult.success "hi") "Why?").2 = [mkRequest "Why?"] := by
  have h := claim_C7_raw_payload ⟨"key"⟩ (fun _ => CallResult.success "hi")
    (some " Why? ") "Why?"
  exact ⟨(h.1 (by decide)).1, (h.2 (by decide)).1⟩

/-- Claim C8: the two entry points' core functions are extensionally equal:
the two `basic_preprocess` copies agree on every input, and the two answer
requesters behave identically for every question and service outcome. -/
theorem claim_C8_entry_points_agree :
    (∀ s : String, CLI.basic_preprocess s = App.basic_preprocess s) ∧
    (∀ (c : Client) (service : Request → CallResult) (q : String),
      App.get_llm_response (some c) service q = CLI.get_answer_from_llm service q) :=
  ⟨fun _ => rfl, fun _ _ _ => rfl⟩

/-- Claim C9: the console entry point handles exactly one exchange: on blank
input it prints the no-question message and issues no request; otherwise it
prints the original question, the normalized question and the answer, issuing
exactly one request. -/
theorem claim_C9_single_exchange :
    ∀ (service : Request → CallResult) (line : String),
      ((∀ c ∈ line.data, isSpaceChar c = true) →
        CLI.main service line =
          (["--- LLM Q&A Command-Line Interface ---", "\nEnter your question: ",
            "No question entered. Exiting."], [])) ∧
      (¬(∀ c ∈ line.data, isSpaceChar c = true) →
        CLI.main service line =
          (["--- LLM Q&A Command-Line Interface ---", "\nEnter your question: ",
            "\nOriginal Question: " ++ line,
            "Preprocessed Text: " ++ CLI.basic_preprocess line,
            "\nSending question to LLM...",
            "\n==================================",
            "🤖 Final LLM Answer:",
            (CLI.get_answer_from_llm service line).1,
            "=================================="], [mkRequest line])) := by
  intro service line
  constructor
  · intro h
    have hnil : (pythonStrip line).data = [] := (pythonStrip_data_eq_nil_iff _).mpr h
    simp [CLI.main, hnil]
  · intro h
    have hne : ¬(pythonStrip line).data = [] := by
      intro hnil
      exact h ((pythonStrip_data_eq_nil_iff _).mp hnil)
    have hie := isEmpty_false_of_ne_nil hne
    simp [CLI.main, hie, get_answer_requests]

/-- Witness for C9: blank input prints the message without a request; the
input "Hi" produces one request and the exchange transcript. -/
theorem claim_C9_witness :
    CLI.main (fun _ => CallResult.success "Hello!") " \t " =
      (["--- LLM Q&A Command-Line Interface ---", "\nEnter your question: ",
        "No question entered. Exiting."], []) ∧
    (CLI.main (fun _ => CallResult.success "Hello!") "Hi").2 = [mkRequest "Hi"] := by
  have h1 := claim_C9_single_exchange (fun _ => CallResult.success "Hello!") " \t "
  have h2 := claim_C9_single_exchange (fun _ => CallResult.success "Hello!") "Hi"
  refine ⟨h1.1 (by decide), ?_⟩
  rw [h2.2 (by decide)]

/-- Claim C10: every output of the normalizer contains no uppercase ASCII
letter, no ASCII punctuation character, no leading or trailing whitespace and
no two consecutive whitespace characters, and is a fixed point of the
normalizer. -/
theorem claim_C10_output_invariants : ∀ s : String,
    (∀ c ∈ (CLI.basic_preprocess s).data, ¬(65 ≤ c.toNat ∧ c.toNat ≤ 90)) ∧
    (∀ c ∈ (CLI.basic_preprocess s).data, isPunct c = false) ∧
    (∀ c : Char, ((CLI.basic_preprocess s).data.head? = some c → isSpaceChar c = false) ∧
      ((CLI.basic_preprocess s).data.getLast? = some c → isSpaceChar c = false)) ∧
    List.Chain' (fun a b => ¬(isSpaceChar a = true ∧ isSpaceChar b = true))
      (CLI.basic_preprocess s).data ∧
    CLI.basic_preprocess (CLI.basic_preprocess s) = CLI.basic_preprocess s := by
  intro s
  refine ⟨?_, ?_, ?_, ?_, ?_⟩
  · intro c hmem
    rw [bp_data] at hmem
    exact (ppList_chars hmem).1
  · intro c hc
    rw [bp_data] at hc
    exact (ppList_chars hc).2
  · intro c
    constructor
    · intro h
      rw [bp_data] at h
      exact ppList_head h
    · intro h
      rw [bp_data] at h
      exact ppList_last h
  · rw [bp_data]
    exact chain'_joinSep (ppList_tokens_good s.data)
  · apply string_ext
    rw [bp_data, bp_data, ppList_fixed]

/-- Witness for C10: on the input " A  b! " the output is "a b", whose first
and last characters are not whitespace, and which the normalizer fixes. -/
theorem claim_C10_witness :
    isSpaceChar 'a' = false ∧ isSpaceChar 'b' = false ∧
    CLI.basic_preprocess (CLI.basic_preprocess " A  b! ") =
      CLI.basic_preprocess " A  b! " := by
  have h := claim_C10_output_invariants " A  b! "
  exact ⟨(h.2.2.1 'a').1 (by decide), (h.2.2.1 'b').2 (by decide), h.2.2.2.2⟩
